/-
Verification of the `sales` repository: a shallow embedding in Lean 4 of the
grouping + aggregation pipeline (src/usd.rs, src/groups.rs, src/report.rs),
together with theorems settling the specification claims about it.

Conventions of the embedding:
* Rust `i32` values are modelled as `Int` together with an explicit range
  check `checkedI32`.  In Rust, arithmetic overflow on `i32` panics in debug
  builds and wraps in release builds; in neither case does the operation
  produce the mathematically exact result, so overflowing operations are
  modelled as returning `none`.
* Fallible operations return `Option` or `Except Err`.
* `regex::Regex` is modelled by a small regular-expression AST with a
  Brzozowski-derivative matcher.  `Regex::is_match` performs an unanchored
  search (it reports whether the pattern matches any substring of the
  haystack); `Regex.is_match` below implements exactly that search on top of
  the anchored matcher `rmatch`.
* `BTreeMap<String, Product>` is modelled as an association list kept
  strictly sorted by key (`mapWF`); iteration order is ascending key order,
  as for `BTreeMap`.
-/
import Mathlib

namespace Sales

/-! ### i32 arithmetic -/

/-- Smallest `i32` value. -/
def i32min : Int := -(2 ^ 31)

/-- Largest `i32` value. -/
def i32max : Int := 2 ^ 31 - 1

/-- Predicate: `n` fits in an `i32`. -/
def fitsI32 (n : Int) : Prop := i32min ≤ n ∧ n ≤ i32max

instance (n : Int) : Decidable (fitsI32 n) := by
  unfold fitsI32; infer_instance

/-- The result of an `i32` operation whose mathematical value is `n`:
`none` models the overflow case (debug-build panic / release-build wrap),
in which the exact value is not produced. -/
def checkedI32 (n : Int) : Option Int :=
  if fitsI32 n then some n else none

theorem checkedI32_eq_some {n m : Int} (h : checkedI32 n = some m) :
    m = n ∧ fitsI32 n := by
  unfold checkedI32 at h
  split at h
  · exact ⟨(Option.some_inj.mp h).symm, by assumption⟩
  · exact absurd h (by simp)

theorem checkedI32_of_fits {n : Int} (h : fitsI32 n) : checkedI32 n = some n := by
  simp [checkedI32, h]

/-! ### Usd (src/usd.rs)

`pub struct Usd(i32);` — an amount of money stored as an integer number of
cents. -/

/-- Model of `Usd`: an `i32` number of cents (src/usd.rs). -/
structure Usd where
  cents : Int
deriving DecidableEq, Repr

/-- Rust `impl AddAssign for Usd { self.0 += rhs.0 }` — `i32` addition of the
cent counts, `none` on overflow. -/
def Usd.add (a b : Usd) : Option Usd :=
  (checkedI32 (a.cents + b.cents)).map Usd.mk

/-- Rust `impl Mul for Usd { Self(self.0 * rhs) }` — `i32` multiplication
of the cent count by a scalar, `none` on overflow. -/
def Usd.mul (a : Usd) (n : Int) : Option Usd :=
  (checkedI32 (a.cents * n)).map Usd.mk

/-- Rust `Usd::default()` is zero cents. -/
def Usd.zero : Usd := ⟨0⟩

/-! ### Digit strings

Rust's `str::parse::<i32>` and the decimal rendering used by `Display for
Usd`, modelled from first principles so that both directions are plain
executable functions on `List Char`. -/

/-- The ASCII digit character for `d` (meaningful for `d < 10`). -/
def digitChar (d : Nat) : Char := Char.ofNat (48 + d)

/-- Is `c` an ASCII digit? -/
def isDigitChar (c : Char) : Bool := 48 ≤ c.toNat && c.toNat ≤ 57

/-- Numeric value of an ASCII digit character. -/
def digitVal (c : Char) : Nat := c.toNat - 48

/-- Horner evaluation of a most-significant-digit-first digit string. -/
def digitsVal (l : List Char) : Nat :=
  l.foldl (fun acc c => 10 * acc + digitVal c) 0

/-- Fuel-indexed decimal rendering; the fuel bounds the number of digits
(the degenerate out-of-fuel case is never reached from `natToChars`). -/
def natToCharsAux : Nat → Nat → List Char
  | 0, n => [digitChar n]
  | fuel + 1, n =>
    if n < 10 then [digitChar n]
    else natToCharsAux fuel (n / 10) ++ [digitChar (n % 10)]

/-- Decimal rendering of a natural number, most significant digit first,
without leading zeros (and `"0"` for zero) — the behaviour of Rust's
integer `Display`. -/
def natToChars (n : Nat) : List Char := natToCharsAux n n

/-- Rust `str::parse::<u32-style digits>`: all characters must be ASCII
digits and there must be at least one. -/
def parseNatChars (l : List Char) : Option Nat :=
  if l = [] then none
  else if l.all isDigitChar then some (digitsVal l) else none

/-- Rust `str::parse::<i32>`: an optional sign followed by at least one
digit; the value must fit in `i32` (out-of-range input is an error in both
debug and release builds). -/
def parseI32Chars (l : List Char) : Option Int :=
  match l with
  | [] => none
  | c :: rest =>
    if c = '-' then (parseNatChars rest).bind fun n => checkedI32 (-(n : Int))
    else if c = '+' then (parseNatChars rest).bind fun n => checkedI32 (n : Int)
    else (parseNatChars (c :: rest)).bind fun n => checkedI32 (n : Int)

/-- Rust `impl FromStr for Usd`: `Self(s.replace(['.', ','], "").parse()?)` —
delete every `.` and `,` character, then parse the remainder as an `i32`
count of cents. -/
def Usd.fromStr (s : String) : Option Usd :=
  (parseI32Chars (s.data.filter fun c => !(c = '.' || c = ','))).map Usd.mk

/-- Left-pad `s` with spaces to width `w` (Rust right-aligned `{:>w}`). -/
def padLeft (w : Nat) (s : String) : String :=
  String.mk (List.replicate (w - s.data.length) ' ') ++ s

/-- Right-pad `s` with spaces to width `w` (Rust left-aligned `{:w}`). -/
def padRight (w : Nat) (s : String) : String :=
  s ++ String.mk (List.replicate (w - s.data.length) ' ')

/-- Exactly-two-digit rendering of `r` (meaningful for `r < 100`). -/
def twoDigits (r : Nat) : List Char := [digitChar (r / 10), digitChar (r % 10)]

/-- The unpadded text produced by `impl Display for Usd`:
`f64::from(self.0) / 100.0` rendered with two fractional digits.  For every
`i32` cent count the `f64` division and two-place rounding recover exactly
`cents / 100`, so the text is the sign, the integral dollars, `.`, and the
two-digit cent remainder. -/
def Usd.displayCore (u : Usd) : String :=
  (if u.cents < 0 then "-" else "")
    ++ String.mk (natToChars (u.cents.natAbs / 100))
    ++ "." ++ String.mk (twoDigits (u.cents.natAbs % 100))

/-- Rust `impl Display for Usd`: `write!(f, "{dollars:>12.2}")` — the two-place
rendering right-aligned to width 12 (src/usd.rs). -/
def Usd.display (u : Usd) : String :=
  padLeft 12 u.displayCore

/-! ### Digit-string lemmas -/

theorem digitsVal_foldl_init (init : Nat) (l : List Char) :
    l.foldl (fun acc c => 10 * acc + digitVal c) init
      = init * 10 ^ l.length + digitsVal l := by
  induction l generalizing init with
  | nil => simp [digitsVal]
  | cons c t ih =>
    simp only [List.foldl_cons, List.length_cons, digitsVal]
    rw [ih (10 * init + digitVal c), ih (10 * 0 + digitVal c)]
    ring

theorem digitsVal_append (a b : List Char) :
    digitsVal (a ++ b) = digitsVal a * 10 ^ b.length + digitsVal b := by
  simp only [digitsVal, List.foldl_append]
  exact digitsVal_foldl_init _ b

theorem digitVal_digitChar {d : Nat} (h : d < 10) : digitVal (digitChar d) = d := by
  interval_cases d <;> decide

theorem isDigitChar_digitChar {d : Nat} (h : d < 10) :
    isDigitChar (digitChar d) = true := by
  interval_cases d <;> decide

theorem isDigitChar_ne {c : Char} (h : isDigitChar c = true) :
    c ≠ '.' ∧ c ≠ ',' ∧ c ≠ '-' ∧ c ≠ '+' := by
  refine ⟨?_, ?_, ?_, ?_⟩ <;> (rintro rfl; revert h; decide)

theorem natToCharsAux_spec : ∀ f n : Nat, n < 10 ^ (f + 1) →
    digitsVal (natToCharsAux f n) = n
      ∧ (natToCharsAux f n).all isDigitChar = true
      ∧ natToCharsAux f n ≠ [] := by
  intro f
  induction f with
  | zero =>
    intro n hn
    have h10 : n < 10 := by simpa using hn
    simp only [natToCharsAux]
    refine ⟨?_, ?_, by simp⟩
    · simp [digitsVal, digitVal_digitChar h10]
    · simp [isDigitChar_digitChar h10]
  | succ f ih =>
    intro n hn
    simp only [natToCharsAux]
    by_cases h10 : n < 10
    · simp only [h10, if_true]
      refine ⟨?_, ?_, by simp⟩
      · simp [digitsVal, digitVal_digitChar h10]
      · simp [isDigitChar_digitChar h10]
    · simp only [h10, if_false]
      have hdiv : n / 10 < 10 ^ (f + 1) := by
        rw [Nat.div_lt_iff_lt_mul (by omega)]
        calc n < 10 ^ (f + 1 + 1) := hn
        _ = 10 ^ (f + 1) * 10 := by ring
      obtain ⟨hv, hd, _⟩ := ih (n / 10) hdiv
      have hmod : n % 10 < 10 := Nat.mod_lt _ (by omega)
      refine ⟨?_, ?_, by simp⟩
      · rw [digitsVal_append, hv]
        have hone : digitsVal [digitChar (n % 10)] = n % 10 := by
          simp [digitsVal, digitVal_digitChar hmod]
        rw [hone]
        simp
        omega
      · simp [hd, isDigitChar_digitChar hmod]

theorem natToChars_spec (n : Nat) :
    digitsVal (natToChars n) = n
      ∧ (natToChars n).all isDigitChar = true
      ∧ natToChars n ≠ [] :=
  natToCharsAux_spec n n
    (lt_of_lt_of_le (Nat.lt_pow_self (by omega) n)
      (Nat.pow_le_pow_right (by omega) (by omega)))

theorem twoDigits_spec {r : Nat} (h : r < 100) :
    digitsVal (twoDigits r) = r ∧ (twoDigits r).all isDigitChar = true := by
  have h1 : r / 10 < 10 := by omega
  have h2 : r % 10 < 10 := by omega
  constructor
  · simp [twoDigits, digitsVal, digitVal_digitChar h1, digitVal_digitChar h2]
    omega
  · simp [twoDigits, isDigitChar_digitChar h1, isDigitChar_digitChar h2]

/-! ### Money parse/display lemmas -/

theorem parseNatChars_eq {l : List Char} (hne : l ≠ [])
    (hall : l.all isDigitChar = true) : parseNatChars l = some (digitsVal l) := by
  simp [parseNatChars, hne, hall]

theorem parseI32Chars_digits {l : List Char} (hne : l ≠ [])
    (hall : l.all isDigitChar = true) :
    parseI32Chars l = checkedI32 ((digitsVal l : Int)) := by
  match l, hne with
  | c :: rest, _ =>
    have hc : isDigitChar c = true :=
      List.all_eq_true.mp hall c (List.mem_cons_self c rest)
    obtain ⟨_, _, h3, h4⟩ := isDigitChar_ne hc
    rw [parseI32Chars, if_neg h3, if_neg h4,
      parseNatChars_eq (by simp) hall, Option.some_bind]

theorem filter_moneyChars {l : List Char} (hall : l.all isDigitChar = true) :
    (l.filter fun c => !(c = '.' || c = ',')) = l := by
  apply List.filter_eq_self.mpr
  intro c hc
  obtain ⟨h1, h2, _, _⟩ := isDigitChar_ne (List.all_eq_true.mp hall c hc)
  simp [h1, h2]

theorem strMk_append (a b : List Char) :
    String.mk a ++ String.mk b = String.mk (a ++ b) := rfl

theorem fromStr_canonical (q r : Nat) (hr : r < 100)
    (hmax : ((q * 100 + r : Nat) : Int) ≤ i32max) :
    Usd.fromStr (String.mk (natToChars q ++ '.' :: twoDigits r))
      = some ⟨((q * 100 + r : Nat) : Int)⟩ := by
  obtain ⟨hvq, hdq, hneq⟩ := natToChars_spec q
  obtain ⟨hvr, hdr⟩ := twoDigits_spec hr
  have hfits : fitsI32 ((q * 100 + r : Nat) : Int) :=
    ⟨le_trans (by norm_num [i32min]) (Int.natCast_nonneg _), hmax⟩
  have hdot : (('.' :: twoDigits r).filter fun c => !(c = '.' || c = ',')) =
      twoDigits r := by
    rw [List.filter_cons]
    simp only [decide_eq_true_eq, reduceIte]
    · exact filter_moneyChars hdr
  unfold Usd.fromStr
  show (parseI32Chars ((natToChars q ++ '.' :: twoDigits r).filter
      fun c => !(c = '.' || c = ','))).map Usd.mk = _
  rw [List.filter_append, filter_moneyChars hdq, hdot]
  have hall : (natToChars q ++ twoDigits r).all isDigitChar = true := by
    rw [List.all_append, hdq, hdr]; rfl
  have hne : natToChars q ++ twoDigits r ≠ [] := by
    intro hcon
    exact hneq (List.append_eq_nil.mp hcon).1
  rw [parseI32Chars_digits hne hall, digitsVal_append, hvq, hvr]
  have hlen : (twoDigits r).length = 2 := rfl
  rw [hlen]
  norm_num
  rw [checkedI32_of_fits (by exact_mod_cast hfits)]

theorem displayCore_canonical (q r : Nat) (hr : r < 100) :
    Usd.displayCore ⟨((q * 100 + r : Nat) : Int)⟩
      = String.mk (natToChars q ++ '.' :: twoDigits r) := by
  unfold Usd.displayCore
  have hneg : ¬(((q * 100 + r : Nat) : Int) < 0) :=
    not_lt.mpr (Int.natCast_nonneg _)
  rw [if_neg hneg]
  have habs : ((q * 100 + r : Nat) : Int).natAbs = q * 100 + r :=
    Int.natAbs_ofNat _
  rw [habs]
  have hdiv : (q * 100 + r) / 100 = q := by omega
  have hmod : (q * 100 + r) % 100 = r := by omega
  rw [hdiv, hmod]
  show String.mk [] ++ String.mk (natToChars q) ++ String.mk ['.']
      ++ String.mk (twoDigits r) = _
  rw [strMk_append, strMk_append, strMk_append]
  congr 1
  simp

/-! ### Regex

Model of the external `regex` crate at the level the claims need: a
regular-expression AST with a Brzozowski-derivative matcher.  `rmatch` is
the anchored (whole-input) match; `Regex::is_match` is documented to report
whether the pattern matches anywhere in the haystack, which `is_match`
implements as a search over all substrings. -/

inductive Regex where
  | emp
  | eps
  | char (c : Char)
  | alt (r1 r2 : Regex)
  | cat (r1 r2 : Regex)
  | star (r : Regex)
deriving DecidableEq, Repr

/-- Does `r` accept the empty string? -/
def Regex.nullable : Regex → Bool
  | .emp => false
  | .eps => true
  | .char _ => false
  | .alt r1 r2 => r1.nullable || r2.nullable
  | .cat r1 r2 => r1.nullable && r2.nullable
  | .star _ => true

/-- Brzozowski derivative of `r` by the character `a`. -/
def Regex.deriv : Regex → Char → Regex
  | .emp, _ => .emp
  | .eps, _ => .emp
  | .char c, a => if a = c then .eps else .emp
  | .alt r1 r2, a => .alt (r1.deriv a) (r2.deriv a)
  | .cat r1 r2, a =>
    if r1.nullable then .alt (.cat (r1.deriv a) r2) (r2.deriv a)
    else .cat (r1.deriv a) r2
  | .star r, a => .cat (r.deriv a) (.star r)

/-- Anchored match: does `r` accept exactly the character list `l`? -/
def Regex.rmatch : Regex → List Char → Bool
  | r, [] => r.nullable
  | r, c :: cs => (r.deriv c).rmatch cs

/-- Model of `Regex::is_match`: unanchored search — true iff the pattern
(anchored-)matches some substring of the haystack. -/
def Regex.is_match (r : Regex) (s : String) : Bool :=
  s.data.tails.any fun t => t.inits.any fun u => r.rmatch u

/-- The regex denoted by a pattern with no metacharacters: the literal
character sequence. -/
def strRegex (s : String) : Regex :=
  s.data.foldr (fun c r => .cat (.char c) r) .eps

theorem is_match_iff_substring (r : Regex) (s : String) :
    r.is_match s = true
      ↔ ∃ u v w, s.data = u ++ v ++ w ∧ r.rmatch v = true := by
  unfold Regex.is_match
  rw [List.any_eq_true]
  constructor
  · rintro ⟨t, ht, hv⟩
    rw [List.any_eq_true] at hv
    obtain ⟨v, hvmem, hm⟩ := hv
    obtain ⟨u, hu⟩ := (List.mem_tails _ _).mp ht
    obtain ⟨w, hw⟩ := (List.mem_inits _ _).mp hvmem
    exact ⟨u, v, w, by rw [← hu, ← hw, List.append_assoc], hm⟩
  · rintro ⟨u, v, w, hs, hm⟩
    refine ⟨v ++ w, (List.mem_tails _ _).mpr ⟨u, by rw [hs, List.append_assoc]⟩, ?_⟩
    rw [List.any_eq_true]
    exact ⟨v, (List.mem_inits _ _).mpr ⟨w, rfl⟩, hm⟩

/-! ### Group rules (src/report.rs `struct Group`, src/groups.rs) -/

/-- A named group rule: `struct Group { name: String, regex: Regex }`. -/
structure Group where
  name : String
  regex : Regex
deriving DecidableEq, Repr

/-- Rust `Report::product_group` / `Groups::product_group`: the name of the
first group (in load order) whose regex matches anywhere in `line_item`,
if any. -/
def product_group (groups : List Group) (line_item : String) : Option String :=
  (groups.find? fun g => g.regex.is_match line_item).map Group.name

/-! ### Report data model (src/report.rs) -/

/-- Error taxonomy: `anyhow` errors split by source, plus `panic` for
aborts that are not `Result` errors in Rust (i32 overflow in debug builds,
`unwrap` of `None`). -/
inductive Err where
  | configError (msg : String)
  | recordError (msg : String)
  | panic
deriving DecidableEq, Repr

/-- Rust `struct Product { units: i32, revenue: Usd }`. -/
structure Product where
  units : Int
  revenue : Usd
deriving DecidableEq, Repr

/-- Rust `Product::default()`: zero units, zero revenue. -/
def Product.deflt : Product := ⟨0, Usd.zero⟩

/-- Lexicographic comparison of character lists by codepoint.  Rust's
`Ord` on `String` is byte-lexicographic on UTF-8, which coincides with
codepoint-lexicographic order. -/
def charsLt : List Char → List Char → Bool
  | [], [] => false
  | [], _ :: _ => true
  | _ :: _, [] => false
  | a :: as, b :: bs =>
    if a < b then true
    else if b < a then false
    else charsLt as bs

/-- Rust `Ord` on `String`. -/
def strLt (a b : String) : Bool := charsLt a.data b.data

/-- Lookup in the `BTreeMap<String, Product>` model: the first binding of
the key. -/
def mapLookup (k : String) : List (String × Product) → Option Product
  | [] => none
  | (k', v) :: rest => if k = k' then some v else mapLookup k rest

/-- Insert/replace in the `BTreeMap<String, Product>` model, keeping keys
in ascending order. -/
def mapInsert (k : String) (v : Product) :
    List (String × Product) → List (String × Product)
  | [] => [(k, v)]
  | (k', v') :: rest =>
    if strLt k k' then (k, v) :: (k', v') :: rest
    else if k = k' then (k, v) :: rest
    else (k', v') :: mapInsert k v rest

/-- Well-formedness of the map model: keys strictly ascending — the
iteration order `BTreeMap` guarantees. -/
def mapWF (m : List (String × Product)) : Prop :=
  m.Pairwise fun a b => strLt a.1 b.1 = true

/-- Rust `struct Report` (src/report.rs): group rules, the product map,
the grand totals, and the presentation flag. -/
structure Report where
  groups : List Group
  products : List (String × Product)
  units : Int
  revenue : Usd
  sort_by_revenue : Bool
deriving DecidableEq, Repr

/-- Rust `Report::new()` = `Report::default()`. -/
def Report.new : Report := ⟨[], [], 0, Usd.zero, false⟩

/-- Rust `struct Record` (src/report.rs lines 231-239): the deserialized
form of one CSV row. -/
structure Record where
  qty : Int
  name : String
  price : Usd
deriving DecidableEq, Repr

/-- The product stored under `name`, with `Product::default()` for an
absent key (the code's `entry(..).or_default()` view). -/
def Report.prodOf (r : Report) (name : String) : Product :=
  (mapLookup name r.products).getD Product.deflt

/-- The display name of a record: the first matching group's name, or the
raw item name when no rule matches
(`self.product_group(&record.name).unwrap_or(record.name)`). -/
def displayName (groups : List Group) (rec : Record) : String :=
  (product_group groups rec.name).getD rec.name

/-- One iteration of the `Report::read_csv` loop body on a deserialized
record (src/report.rs lines 139-148): resolve the display name, add the
quantity to the product's units and the grand total, and the price times
quantity to the product's revenue and the grand total.  `none` models an
`i32` overflow panic. -/
def Report.read_csv_step (r : Report) (rec : Record) : Option Report :=
  (checkedI32 ((r.prodOf (displayName r.groups rec)).units + rec.qty)).bind
    fun punits =>
  (checkedI32 (r.units + rec.qty)).bind fun tunits =>
  (rec.price.mul rec.qty).bind fun revenue =>
  ((r.prodOf (displayName r.groups rec)).revenue.add revenue).bind fun prev =>
  (r.revenue.add revenue).map fun trev =>
    { r with
      products := mapInsert (displayName r.groups rec) ⟨punits, prev⟩ r.products
      units := tunits
      revenue := trev }

/-- Rust `Report::read_csv` restricted to already-deserialized records:
the left-to-right fold of `read_csv_step`. -/
def Report.read_csv_records : Report → List Record → Option Report
  | r, [] => some r
  | r, rec :: rest => (r.read_csv_step rec).bind fun r' => r'.read_csv_records rest

/-! ### CSV record deserialization (serde derive on `Record`) -/

/-- Field resolution of the `csv`+`serde` deserializer: the value in the
column whose header equals one of the field's recognized names
(`rename` / `alias`). -/
def getField (aliases : List String) : List String → List String → Option String
  | [], _ => none
  | h :: hs, row =>
    if aliases.contains h then row.head? else getField aliases hs row.tail

/-- Serde-derive deserialization of `Record` from a CSV row under a header
(src/report.rs lines 231-239).  Every field is required — `qty` carries no
`serde(default)` attribute, so a schema without a quantity column is a
missing-field error. -/
def parse_record (hdr row : List String) : Except Err Record :=
  match getField ["Lineitem quantity", "Quantity"] hdr row with
  | none => .error (.recordError "missing field Lineitem quantity")
  | some qs =>
    match parseI32Chars qs.data with
    | none => .error (.recordError "invalid quantity")
    | some q =>
      match getField ["Lineitem name", "Item Name"] hdr row with
      | none => .error (.recordError "missing field Lineitem name")
      | some nm =>
        match getField ["Lineitem price", "Item Price ($)"] hdr row with
        | none => .error (.recordError "missing field Lineitem price")
        | some ps =>
          match Usd.fromStr ps with
          | none => .error (.recordError "invalid price")
          | some p => .ok ⟨q, nm, p⟩

/-- Rust `Report::read_csv` on an opened CSV file presented as a header and
rows.  It mirrors the `&mut self` signature: the second component is the
receiver's state when the loop stops, which retains the updates performed
before a failing row. -/
def Report.read_csv_rows (hdr : List String) :
    Report → List (List String) → Except Err Unit × Report
  | r, [] => (.ok (), r)
  | r, row :: rest =>
    match parse_record hdr row with
    | .error e => (.error e, r)
    | .ok rec =>
      match r.read_csv_step rec with
      | none => (.error .panic, r)
      | some r' => Report.read_csv_rows hdr r' rest

/-! ### Group configuration loading -/

/-- Rust `str::split_once`: split at the first occurrence of `sep`,
returning the parts before and after it, or `none` when `sep` does not
occur. -/
def splitOnce (sep : List Char) : List Char → Option (List Char × List Char)
  | [] => if sep = [] then some ([], []) else none
  | c :: rest =>
    if sep.isPrefixOf (c :: rest) then some ([], (c :: rest).drop sep.length)
    else (splitOnce sep rest).map fun p => (c :: p.1, p.2)

/-- Rust `Report::add_group`: compile the regex and push the group at the
end.  The regex crate's pattern compiler is external; it is abstracted as
the `compile` parameter. -/
def Report.add_group (compile : String → Except String Regex) (r : Report)
    (name regex_str : String) : Except Err Report :=
  match compile regex_str with
  | .error e => .error (.configError e)
  | .ok re => .ok { r with groups := r.groups ++ [⟨name, re⟩] }

/-- Rust `Report::read_groups` on the configuration file's lines, mirroring
`&mut self`: each well-formed line appends one group in order; a line
without the literal delimiter `" | "` aborts with a `ConfigError`, keeping
the groups already added to the receiver. -/
def Report.read_groups (compile : String → Except String Regex) :
    Report → List String → Except Err Unit × Report
  | r, [] => (.ok (), r)
  | r, line :: rest =>
    match splitOnce " | ".data line.data with
    | none =>
      (.error (.configError ("bad line format (missing |): " ++ line)), r)
    | some (name, regex_str) =>
      match Report.add_group compile r (String.mk name) (String.mk regex_str) with
      | .error e => (.error e, r)
      | .ok r' => Report.read_groups compile r' rest

/-- Rust `Groups::from_file` (src/groups.rs): builds a fresh rule list and
returns it only when every line loads; any failure returns the error alone. -/
def Groups.from_file_lines (compile : String → Except String Regex) :
    List String → Except Err (List Group)
  | [] => .ok []
  | line :: rest =>
    match splitOnce " | ".data line.data with
    | none =>
      .error (.configError ("bad line format (missing |): " ++ line))
    | some (name, regex_str) =>
      match compile (String.mk regex_str) with
      | .error e => .error (.configError e)
      | .ok re =>
        (Groups.from_file_lines compile rest).map
          fun gs => ⟨String.mk name, re⟩ :: gs

/-- A regex compiler for patterns with no metacharacters: such a pattern
compiles to its literal character sequence.  (The regex crate's full
parser is external to this repository; the claims exercise only literal
patterns.) -/
def compileLiteral (s : String) : Except String Regex := .ok (strRegex s)

/-! ### Presentation sorting

Rust's `slice::sort_by` is a stable sort: elements are ordered by the
comparator and elements that compare equal keep their input order.  The
model is a stable insertion sort; `sb a b = true` means `a` sorts strictly
before `b`. -/

/-- Stable-insertion step: place `x` after every element that sorts
strictly before it. -/
def insSorted (sb : α → α → Bool) (x : α) : List α → List α
  | [] => [x]
  | y :: ys => if sb y x then y :: insSorted sb x ys else x :: y :: ys

/-- Stable sort by the strict comparator `sb`. -/
def stableSort (sb : α → α → Bool) : List α → List α
  | [] => []
  | x :: xs => insSorted sb x (stableSort sb xs)

/-- The strict "sorts before" test induced by a descending metric: `a`
before `b` iff `metric b < metric a` (Rust `metric(b).cmp(&metric(a)) ==
Less`). -/
def sbOf (metric : String → Int) : String → String → Bool :=
  fun a b => decide (metric b < metric a)

/-- Descending-metric order with ties in ascending name order: the order
a stable descending sort produces from an ascending-key input. -/
def lexOrd (metric : String → Int) : String → String → Prop :=
  fun a b => metric b < metric a ∨ (metric a = metric b ∧ strLt a b = true)

/-- Rust `Report::products_by_unit_sales`: the product names, collected in
`BTreeMap` ascending-key order and stable-sorted by descending units
(comparator `prod_b.units.cmp(&prod_a.units)`). -/
def Report.products_by_unit_sales (r : Report) : List String :=
  stableSort (sbOf fun n => (r.prodOf n).units) (r.products.map Prod.fst)

/-- Rust `Report::products_by_revenue`: likewise by descending revenue
(`Usd`'s derived `Ord` compares the cent counts). -/
def Report.products_by_revenue (r : Report) : List String :=
  stableSort (sbOf fun n => (r.prodOf n).revenue.cents) (r.products.map Prod.fst)

/-! ### Rendering (`impl Display for Report`, src/report.rs lines 193-221) -/

/-- The length of the longest key:
`.keys().max_by_key(|name| name.len()).unwrap().len()`, before the
`unwrap` — `none` on an empty map. -/
def longestKeyLen : List (String × Product) → Option Nat
  | [] => none
  | (k, _) :: rest =>
    some (match longestKeyLen rest with
      | none => k.data.length
      | some m => max k.data.length m)

/-- Rust integer `Display`: optional sign and decimal digits. -/
def intToString (n : Int) : String :=
  (if n < 0 then "-" else "") ++ String.mk (natToChars n.natAbs)

/-- Model of `impl Display for Report`: the width is the `unwrap`ped
longest key length — `none` (panic) when the product map is empty —
followed by the header, a separator, one row per product in the selected
order, a separator, and the totals row. -/
def Report.render (r : Report) : Option String :=
  match longestKeyLen r.products with
  | none => none
  | some width =>
    let header := padRight width "Product / Group" ++ " "
      ++ padLeft 6 "Units" ++ " " ++ padLeft 12 "Revenue"
    let sep := String.mk (List.replicate (width + 20) '-')
    let rows := if r.sort_by_revenue then r.products_by_revenue
      else r.products_by_unit_sales
    let rowLine := fun name =>
      padRight width name ++ " " ++ padLeft 6 (intToString (r.prodOf name).units)
        ++ " " ++ (r.prodOf name).revenue.display
    let total := padRight width "Total" ++ " " ++ padLeft 6 (intToString r.units)
      ++ " " ++ r.revenue.display
    some (String.intercalate "\n"
      (header :: sep :: (rows.map rowLine ++ [sep, total])) ++ "\n")

/-! ### Order lemmas for `charsLt` / `strLt` -/

theorem charsLt_irrefl : ∀ a : List Char, charsLt a a = false := by
  intro a
  induction a with
  | nil => rfl
  | cons x xs ih =>
    simp only [charsLt, lt_irrefl x, if_false]
    exact ih

theorem charsLt_trans : ∀ a b c : List Char,
    charsLt a b = true → charsLt b c = true → charsLt a c = true := by
  intro a
  induction a with
  | nil =>
    intro b c hab hbc
    cases b with
    | nil => simp [charsLt] at hab
    | cons y ys =>
      cases c with
      | nil => simp [charsLt] at hbc
      | cons z zs => simp [charsLt]
  | cons x xs ih =>
    intro b c hab hbc
    cases b with
    | nil => simp [charsLt] at hab
    | cons y ys =>
      cases c with
      | nil => simp [charsLt] at hbc
      | cons z zs =>
        simp only [charsLt] at hab hbc ⊢
        by_cases hxy : x < y
        · by_cases hyz : y < z
          · simp [lt_trans hxy hyz]
          · by_cases hzy : z < y
            · simp [hyz, hzy] at hbc
            · have hy : y = z := le_antisymm (not_lt.mp hzy) (not_lt.mp hyz)
              subst hy
              simp [hxy]
        · by_cases hyx : y < x
          · simp [hxy, hyx] at hab
          · have hx : x = y := le_antisymm (not_lt.mp hyx) (not_lt.mp hxy)
            subst hx
            rw [if_neg (lt_irrefl x), if_neg (lt_irrefl x)] at hab
            by_cases hxz : x < z
            · simp [hxz]
            · by_cases hzx : z < x
              · simp [hxz, hzx] at hbc
              · have hz : x = z := le_antisymm (not_lt.mp hzx) (not_lt.mp hxz)
                subst hz
                rw [if_neg (lt_irrefl x), if_neg (lt_irrefl x)] at hbc ⊢
                exact ih ys zs hab hbc

theorem charsLt_connex : ∀ a b : List Char,
    charsLt a b = false → charsLt b a = false → a = b := by
  intro a
  induction a with
  | nil =>
    intro b hab _
    cases b with
    | nil => rfl
    | cons y ys => simp [charsLt] at hab
  | cons x xs ih =>
    intro b hab hba
    cases b with
    | nil => simp [charsLt] at hba
    | cons y ys =>
      simp only [charsLt] at hab hba
      by_cases hxy : x < y
      · simp [hxy] at hab
      · by_cases hyx : y < x
        · simp [hxy, hyx] at hba
        · have hx : x = y := le_antisymm (not_lt.mp hyx) (not_lt.mp hxy)
          subst hx
          rw [if_neg (lt_irrefl x), if_neg (lt_irrefl x)] at hab hba
          rw [ih ys hab hba]

theorem strLt_irrefl (a : String) : strLt a a = false := charsLt_irrefl a.data

theorem strLt_trans {a b c : String} (h1 : strLt a b = true)
    (h2 : strLt b c = true) : strLt a c = true :=
  charsLt_trans a.data b.data c.data h1 h2

theorem strLt_asymm {a b : String} (h1 : strLt a b = true) :
    strLt b a = false := by
  by_contra hcon
  have h2 : strLt b a = true := by
    cases hx : strLt b a
    · exact absurd hx hcon
    · rfl
  have := strLt_trans h1 h2
  rw [strLt_irrefl a] at this
  exact Bool.false_ne_true this

theorem strLt_connex {a b : String} (h1 : strLt a b = false)
    (h2 : strLt b a = false) : a = b := by
  have hd : a.data = b.data := charsLt_connex a.data b.data h1 h2
  cases a; cases b
  exact congrArg String.mk hd

theorem strLt_ne {a b : String} (h : strLt a b = true) : a ≠ b := by
  rintro rfl
  rw [strLt_irrefl a] at h
  exact Bool.false_ne_true h

/-! ### Map-model lemmas -/

theorem mapLookup_none (k : String) :
    ∀ m : List (String × Product), (∀ p ∈ m, k ≠ p.1) → mapLookup k m = none := by
  intro m
  induction m with
  | nil => intro _; rfl
  | cons p rest ih =>
    intro h
    obtain ⟨k', v'⟩ := p
    have hne : k ≠ k' := h (k', v') (List.mem_cons_self _ _)
    simp only [mapLookup, if_neg hne]
    exact ih fun q hq => h q (List.mem_cons_of_mem _ hq)

theorem mapLookup_insert_self (k : String) (v : Product) :
    ∀ m : List (String × Product), mapLookup k (mapInsert k v m) = some v := by
  intro m
  induction m with
  | nil => simp [mapInsert, mapLookup]
  | cons p rest ih =>
    obtain ⟨k', v'⟩ := p
    simp only [mapInsert]
    cases h1 : strLt k k' with
    | true => simp [mapLookup]
    | false =>
      by_cases h2 : k = k'
      · simp [h2, mapLookup]
      · simp [h2, mapLookup, ih]

theorem mapLookup_insert_ne (k k' : String) (v : Product) (hne : k' ≠ k) :
    ∀ m : List (String × Product),
      mapLookup k' (mapInsert k v m) = mapLookup k' m := by
  intro m
  induction m with
  | nil => simp [mapInsert, mapLookup, hne]
  | cons p rest ih =>
    obtain ⟨k'', v''⟩ := p
    simp only [mapInsert]
    cases h1 : strLt k k'' with
    | true => simp [mapLookup, hne]
    | false =>
      by_cases h2 : k = k''
      · subst h2
        simp [mapLookup, hne]
      · rw [if_neg Bool.false_ne_true, if_neg h2]
        simp only [mapLookup]
        by_cases h3 : k' = k''
        · simp [h3]
        · simp [h3, ih]

theorem mem_mapInsert (k : String) (v : Product) :
    ∀ m p, p ∈ mapInsert k v m → p.1 = k ∨ p ∈ m := by
  intro m
  induction m with
  | nil =>
    intro p hp
    simp only [mapInsert, List.mem_singleton] at hp
    exact Or.inl (by rw [hp])
  | cons q rest ih =>
    intro p hp
    obtain ⟨k', v'⟩ := q
    simp only [mapInsert] at hp
    cases h1 : strLt k k' with
    | true =>
      rw [h1] at hp
      simp only [if_true, List.mem_cons] at hp
      rcases hp with h | h | h
      · exact Or.inl (by rw [h])
      · exact Or.inr (List.mem_cons.mpr (Or.inl h))
      · exact Or.inr (List.mem_cons.mpr (Or.inr h))
    | false =>
      rw [h1, if_neg Bool.false_ne_true] at hp
      by_cases h2 : k = k'
      · rw [if_pos h2] at hp
        rcases List.mem_cons.mp hp with h | h
        · exact Or.inl (by rw [h])
        · exact Or.inr (List.mem_cons.mpr (Or.inr h))
      · rw [if_neg h2] at hp
        rcases List.mem_cons.mp hp with h | h
        · exact Or.inr (List.mem_cons.mpr (Or.inl h))
        · rcases ih p h with h' | h'
          · exact Or.inl h'
          · exact Or.inr (List.mem_cons.mpr (Or.inr h'))

theorem mapInsert_WF (k : String) (v : Product) :
    ∀ m, mapWF m → mapWF (mapInsert k v m) := by
  intro m
  induction m with
  | nil => intro _; simp [mapInsert, mapWF]
  | cons q rest ih =>
    intro hWF
    obtain ⟨k', v'⟩ := q
    rw [mapWF, List.pairwise_cons] at hWF
    obtain ⟨h1, h2⟩ := hWF
    simp only [mapInsert]
    cases hlt : strLt k k' with
    | true =>
      simp only [if_true]
      rw [mapWF, List.pairwise_cons]
      constructor
      · intro p hp
        rcases List.mem_cons.mp hp with h | h
        · rw [h]; exact hlt
        · exact strLt_trans hlt (h1 p h)
      · rw [← mapWF]
        exact List.Pairwise.cons h1 h2
    | false =>
      rw [if_neg Bool.false_ne_true]
      by_cases heq : k = k'
      · rw [if_pos heq]
        rw [mapWF, List.pairwise_cons]
        exact ⟨fun p hp => heq ▸ h1 p hp, h2⟩
      · rw [if_neg heq]
        have hgt : strLt k' k = true := by
          cases hx : strLt k' k
          · exact absurd (strLt_connex hlt hx) heq
          · rfl
        rw [mapWF, List.pairwise_cons]
        constructor
        · intro p hp
          rcases mem_mapInsert k v rest p hp with h | h
          · rw [h]; exact hgt
          · exact h1 p h
        · exact ih h2

theorem mapSum_insert (f : Product → Int) (hf0 : f Product.deflt = 0)
    (k : String) (v : Product) :
    ∀ m, mapWF m →
      ((mapInsert k v m).map fun kv => f kv.2).sum
        = (m.map fun kv => f kv.2).sum + f v
            - f ((mapLookup k m).getD Product.deflt) := by
  intro m
  induction m with
  | nil => simp [mapInsert, mapLookup, hf0]
  | cons q rest ih =>
    intro hWF
    obtain ⟨k', v'⟩ := q
    rw [mapWF, List.pairwise_cons] at hWF
    obtain ⟨h1, h2⟩ := hWF
    simp only [mapInsert]
    cases hlt : strLt k k' with
    | true =>
      simp only [if_true, List.map_cons, List.sum_cons]
      have hne : k ≠ k' := strLt_ne hlt
      have hnone : mapLookup k ((k', v') :: rest) = none := by
        apply mapLookup_none
        intro p hp
        rcases List.mem_cons.mp hp with h | h
        · rw [h]; exact hne
        · intro hcon
          have hk'p : strLt k' p.1 = true := h1 p h
          rw [← hcon] at hk'p
          have := strLt_trans hlt hk'p
          rw [strLt_irrefl k] at this
          exact Bool.false_ne_true this
      rw [hnone]
      simp [hf0]
      omega
    | false =>
      rw [if_neg Bool.false_ne_true]
      by_cases heq : k = k'
      · subst heq
        rw [if_pos rfl]
        have hlk : mapLookup k ((k, v') :: rest) = some v' := by
          simp [mapLookup]
        rw [hlk]
        simp only [List.map_cons, List.sum_cons, Option.getD_some]
        omega
      · rw [if_neg heq]
        simp only [List.map_cons, List.sum_cons]
        rw [ih h2]
        simp only [mapLookup, if_neg heq]
        omega

/-! ### Aggregation lemmas (the `read_csv` fold) -/

/-- Sum of the quantities of the records whose display name is `name`. -/
def sumQty (groups : List Group) (name : String) (recs : List Record) : Int :=
  ((recs.filter fun rec => decide (displayName groups rec = name)).map
    Record.qty).sum

/-- Sum of unit price times quantity (in cents) of the records whose
display name is `name`. -/
def sumRev (groups : List Group) (name : String) (recs : List Record) : Int :=
  ((recs.filter fun rec => decide (displayName groups rec = name)).map
    fun rec => rec.price.cents * rec.qty).sum

theorem sumQty_cons (groups : List Group) (name : String) (rec : Record)
    (rest : List Record) :
    sumQty groups name (rec :: rest)
      = (if displayName groups rec = name then rec.qty else 0)
          + sumQty groups name rest := by
  by_cases h : displayName groups rec = name <;>
    simp [sumQty, List.filter_cons, h]

theorem sumRev_cons (groups : List Group) (name : String) (rec : Record)
    (rest : List Record) :
    sumRev groups name (rec :: rest)
      = (if displayName groups rec = name then rec.price.cents * rec.qty else 0)
          + sumRev groups name rest := by
  by_cases h : displayName groups rec = name <;>
    simp [sumRev, List.filter_cons, h]

theorem read_csv_step_some {r : Report} {rec : Record} {r' : Report}
    (h : r.read_csv_step rec = some r') :
    r'.groups = r.groups
    ∧ r'.sort_by_revenue = r.sort_by_revenue
    ∧ r'.units = r.units + rec.qty
    ∧ r'.revenue.cents = r.revenue.cents + rec.price.cents * rec.qty
    ∧ r'.products = mapInsert (displayName r.groups rec)
        ⟨(r.prodOf (displayName r.groups rec)).units + rec.qty,
         ⟨(r.prodOf (displayName r.groups rec)).revenue.cents
            + rec.price.cents * rec.qty⟩⟩ r.products := by
  unfold Report.read_csv_step Usd.mul Usd.add at h
  cases h1 : checkedI32 ((r.prodOf (displayName r.groups rec)).units + rec.qty) with
  | none => rw [h1] at h; simp at h
  | some punits =>
    rw [h1] at h
    obtain ⟨hp1, _⟩ := checkedI32_eq_some h1
    subst hp1
    cases h2 : checkedI32 (r.units + rec.qty) with
    | none => rw [h2] at h; simp at h
    | some tunits =>
      rw [h2] at h
      obtain ⟨hp2, _⟩ := checkedI32_eq_some h2
      subst hp2
      cases h3 : checkedI32 (rec.price.cents * rec.qty) with
      | none => rw [h3] at h; simp at h
      | some c =>
        rw [h3] at h
        obtain ⟨hp3, _⟩ := checkedI32_eq_some h3
        subst hp3
        simp only [Option.some_bind, Option.map_some'] at h
        cases h4 : checkedI32
            ((r.prodOf (displayName r.groups rec)).revenue.cents
              + rec.price.cents * rec.qty) with
        | none => rw [h4] at h; simp at h
        | some pc =>
          rw [h4] at h
          obtain ⟨hp4, _⟩ := checkedI32_eq_some h4
          subst hp4
          cases h5 : checkedI32 (r.revenue.cents + rec.price.cents * rec.qty) with
          | none => rw [h5] at h; simp at h
          | some tc =>
            rw [h5] at h
            obtain ⟨hp5, _⟩ := checkedI32_eq_some h5
            subst hp5
            simp only [Option.some_bind, Option.map_some', Option.some_inj] at h
            subst h
            exact ⟨rfl, rfl, rfl, rfl, rfl⟩

theorem read_csv_step_of_fits {r : Report} {rec : Record}
    (h1 : fitsI32 ((r.prodOf (displayName r.groups rec)).units + rec.qty))
    (h2 : fitsI32 (r.units + rec.qty))
    (h3 : fitsI32 (rec.price.cents * rec.qty))
    (h4 : fitsI32 ((r.prodOf (displayName r.groups rec)).revenue.cents
      + rec.price.cents * rec.qty))
    (h5 : fitsI32 (r.revenue.cents + rec.price.cents * rec.qty)) :
    r.read_csv_step rec = some
      { r with
        products := mapInsert (displayName r.groups rec)
          ⟨(r.prodOf (displayName r.groups rec)).units + rec.qty,
           ⟨(r.prodOf (displayName r.groups rec)).revenue.cents
              + rec.price.cents * rec.qty⟩⟩ r.products
        units := r.units + rec.qty
        revenue := ⟨r.revenue.cents + rec.price.cents * rec.qty⟩ } := by
  unfold Report.read_csv_step Usd.mul Usd.add
  rw [checkedI32_of_fits h1, checkedI32_of_fits h2, checkedI32_of_fits h3]
  simp only [Option.some_bind, Option.map_some']
  rw [checkedI32_of_fits h4, checkedI32_of_fits h5]
  simp only [Option.some_bind, Option.map_some']

theorem read_csv_records_spec :
    ∀ (recs : List Record) (r0 r : Report),
      r0.read_csv_records recs = some r →
      r.groups = r0.groups
      ∧ ∀ name, (r.prodOf name).units
            = (r0.prodOf name).units + sumQty r0.groups name recs
          ∧ (r.prodOf name).revenue.cents
            = (r0.prodOf name).revenue.cents + sumRev r0.groups name recs := by
  intro recs
  induction recs with
  | nil =>
    intro r0 r h
    simp only [Report.read_csv_records, Option.some_inj] at h
    subst h
    exact ⟨rfl, fun name => by simp [sumQty, sumRev]⟩
  | cons rec rest ih =>
    intro r0 r h
    simp only [Report.read_csv_records] at h
    cases hstep : r0.read_csv_step rec with
    | none => rw [hstep] at h; simp at h
    | some r1 =>
      rw [hstep] at h
      simp only [Option.some_bind] at h
      obtain ⟨hg, _, _, _, hprod⟩ := read_csv_step_some hstep
      obtain ⟨hg', hrest⟩ := ih r1 r h
      refine ⟨by rw [hg', hg], fun name => ?_⟩
      obtain ⟨hu', hr'⟩ := hrest name
      rw [hg] at hu' hr'
      rw [sumQty_cons, sumRev_cons]
      by_cases hname : displayName r0.groups rec = name
      · subst hname
        have hlk : r1.prodOf (displayName r0.groups rec)
            = ⟨(r0.prodOf (displayName r0.groups rec)).units + rec.qty,
               ⟨(r0.prodOf (displayName r0.groups rec)).revenue.cents
                  + rec.price.cents * rec.qty⟩⟩ := by
          unfold Report.prodOf
          rw [hprod, mapLookup_insert_self]
          rfl
        rw [hlk] at hu' hr'
        dsimp only at hu' hr'
        exact ⟨by rw [if_pos rfl]; omega, by rw [if_pos rfl]; omega⟩
      · have hlk : r1.prodOf name = r0.prodOf name := by
          unfold Report.prodOf
          rw [hprod, mapLookup_insert_ne _ _ _ (fun hc => hname hc.symm)]
        rw [hlk] at hu' hr'
        rw [if_neg hname, if_neg hname]
        exact ⟨by omega, by omega⟩

/-! ### Grand-totals invariant (C2 infrastructure) -/

/-- Sum of the per-product units. -/
def unitsSum (m : List (String × Product)) : Int :=
  (m.map fun kv => kv.2.units).sum

/-- Sum of the per-product revenues, in cents. -/
def revenueSum (m : List (String × Product)) : Int :=
  (m.map fun kv => kv.2.revenue.cents).sum

/-- The cross-check invariant of `Report`: the grand totals equal the sums
over the per-product aggregates. -/
def totalsInvariant (r : Report) : Prop :=
  r.units = unitsSum r.products ∧ r.revenue.cents = revenueSum r.products

theorem read_csv_step_invariant {r : Report} {rec : Record} {r' : Report}
    (hWF : mapWF r.products) (hInv : totalsInvariant r)
    (h : r.read_csv_step rec = some r') :
    totalsInvariant r' ∧ mapWF r'.products := by
  obtain ⟨_, _, hu, hrev, hprod⟩ := read_csv_step_some h
  obtain ⟨hIu, hIr⟩ := hInv
  refine ⟨⟨?_, ?_⟩, ?_⟩
  · rw [hu, hprod]
    have hsum := mapSum_insert (fun p => p.units) rfl (displayName r.groups rec)
      ⟨(r.prodOf (displayName r.groups rec)).units + rec.qty,
       ⟨(r.prodOf (displayName r.groups rec)).revenue.cents
          + rec.price.cents * rec.qty⟩⟩ r.products hWF
    dsimp only at hsum
    unfold unitsSum
    rw [hsum]
    unfold Report.prodOf at *
    unfold unitsSum at hIu
    omega
  · rw [hrev, hprod]
    have hsum := mapSum_insert (fun p => p.revenue.cents) rfl (displayName r.groups rec)
      ⟨(r.prodOf (displayName r.groups rec)).units + rec.qty,
       ⟨(r.prodOf (displayName r.groups rec)).revenue.cents
          + rec.price.cents * rec.qty⟩⟩ r.products hWF
    dsimp only at hsum
    unfold revenueSum
    rw [hsum]
    unfold Report.prodOf at *
    unfold revenueSum at hIr
    omega
  · rw [hprod]
    exact mapInsert_WF _ _ _ hWF

theorem read_csv_records_invariant :
    ∀ (recs : List Record) (r0 r : Report),
      mapWF r0.products → totalsInvariant r0 →
      r0.read_csv_records recs = some r →
      totalsInvariant r ∧ mapWF r.products := by
  intro recs
  induction recs with
  | nil =>
    intro r0 r hWF hInv h
    simp only [Report.read_csv_records, Option.some_inj] at h
    subst h
    exact ⟨hInv, hWF⟩
  | cons rec rest ih =>
    intro r0 r hWF hInv h
    simp only [Report.read_csv_records] at h
    cases hstep : r0.read_csv_step rec with
    | none => rw [hstep] at h; simp at h
    | some r1 =>
      rw [hstep] at h
      simp only [Option.some_bind] at h
      obtain ⟨hInv1, hWF1⟩ := read_csv_step_invariant hWF hInv hstep
      exact ih r1 r hWF1 hInv1 h

/-! ### Stable-sort lemmas (C4 infrastructure) -/

theorem insSorted_perm (sb : α → α → Bool) (x : α) :
    ∀ l : List α, (insSorted sb x l).Perm (x :: l) := by
  intro l
  induction l with
  | nil => exact List.Perm.refl _
  | cons y ys ih =>
    simp only [insSorted]
    cases h : sb y x with
    | true =>
      rw [if_pos rfl]
      exact (ih.cons y).trans (List.Perm.swap x y ys)
    | false =>
      rw [if_neg Bool.false_ne_true]

theorem stableSort_perm (sb : α → α → Bool) :
    ∀ l : List α, (stableSort sb l).Perm l := by
  intro l
  induction l with
  | nil => exact List.Perm.refl _
  | cons x xs ih =>
    simp only [stableSort]
    exact (insSorted_perm sb x (stableSort sb xs)).trans (ih.cons x)

theorem insSorted_pairwise (metric : String → Int) (x : String) :
    ∀ l : List String, l.Pairwise (lexOrd metric) →
      (∀ y ∈ l, metric x = metric y → strLt x y = true) →
      (insSorted (sbOf metric) x l).Pairwise (lexOrd metric) := by
  intro l
  induction l with
  | nil => intro _ _; simp [insSorted]
  | cons y ys ih =>
    intro hl hx
    rw [List.pairwise_cons] at hl
    obtain ⟨hy, hys⟩ := hl
    simp only [insSorted]
    cases hcmp : sbOf metric y x with
    | true =>
      rw [if_pos rfl]
      have hxy : metric x < metric y := of_decide_eq_true hcmp
      rw [List.pairwise_cons]
      refine ⟨?_, ih hys fun z hz hm => hx z (List.mem_cons_of_mem _ hz) hm⟩
      intro z hz
      rcases List.mem_cons.mp ((insSorted_perm (sbOf metric) x ys).mem_iff.mp hz)
        with rfl | hz'
      · exact Or.inl hxy
      · exact hy z hz'
    | false =>
      rw [if_neg Bool.false_ne_true]
      have hnxy : ¬(metric x < metric y) := of_decide_eq_false hcmp
      rw [List.pairwise_cons]
      constructor
      · intro z hz
        rcases List.mem_cons.mp hz with rfl | hz'
        · rcases lt_or_eq_of_le (not_lt.mp hnxy) with hlt | heq
          · exact Or.inl hlt
          · exact Or.inr ⟨heq.symm, hx z (List.mem_cons_self _ _) heq.symm⟩
        · rcases hy z hz' with hlt | ⟨heq, _⟩
          · exact Or.inl (lt_of_lt_of_le hlt (not_lt.mp hnxy))
          · rcases lt_or_eq_of_le (not_lt.mp hnxy) with hlt2 | heq2
            · exact Or.inl (heq ▸ hlt2)
            · have hmz : metric x = metric z := by omega
              exact Or.inr ⟨hmz, hx z (List.mem_cons_of_mem _ hz') hmz⟩
      · exact List.Pairwise.cons hy hys

theorem stableSort_pairwise (metric : String → Int) :
    ∀ l : List String, l.Pairwise (fun a b => strLt a b = true) →
      (stableSort (sbOf metric) l).Pairwise (lexOrd metric) := by
  intro l
  induction l with
  | nil => intro _; simp [stableSort]
  | cons x xs ih =>
    intro hl
    rw [List.pairwise_cons] at hl
    obtain ⟨hx, hxs⟩ := hl
    simp only [stableSort]
    apply insSorted_pairwise
    · exact ih hxs
    · intro y hy _
      exact hx y ((stableSort_perm (sbOf metric) xs).mem_iff.mp hy)

/-! ### First-match characterization of `find?` (C3 infrastructure) -/

theorem find?_eq_some_split (p : α → Bool) :
    ∀ (l : List α) (x : α), l.find? p = some x ↔
      ∃ l1 l2, l = l1 ++ x :: l2 ∧ p x = true ∧ ∀ y ∈ l1, p y = false := by
  intro l
  induction l with
  | nil =>
    intro x
    constructor
    · intro h; simp [List.find?] at h
    · rintro ⟨l1, l2, heq, _, _⟩
      exact absurd heq (by simp)
  | cons a rest ih =>
    intro x
    cases hpa : p a with
    | true =>
      rw [List.find?_cons_of_pos _ hpa]
      constructor
      · intro h
        obtain rfl : a = x := Option.some_inj.mp h
        exact ⟨[], rest, rfl, hpa, by simp⟩
      · rintro ⟨l1, l2, heq, hpx, hl1⟩
        cases l1 with
        | nil =>
          simp only [List.nil_append, List.cons.injEq] at heq
          rw [heq.1]
        | cons b l1' =>
          simp only [List.cons_append, List.cons.injEq] at heq
          have hfalse : p a = false := heq.1 ▸ hl1 b (List.mem_cons_self _ _)
          rw [hpa] at hfalse
          exact absurd hfalse (by simp)
    | false =>
      rw [List.find?_cons_of_neg _ (by simp [hpa])]
      constructor
      · intro h
        obtain ⟨l1, l2, heq, hpx, hl1⟩ := (ih x).mp h
        refine ⟨a :: l1, l2, by rw [heq, List.cons_append], hpx, ?_⟩
        intro y hy
        rcases List.mem_cons.mp hy with rfl | hy'
        · exact hpa
        · exact hl1 y hy'
      · rintro ⟨l1, l2, heq, hpx, hl1⟩
        cases l1 with
        | nil =>
          simp only [List.nil_append, List.cons.injEq] at heq
          rw [heq.1] at hpa
          rw [hpx] at hpa
          exact absurd hpa (by simp)
        | cons b l1' =>
          simp only [List.cons_append, List.cons.injEq] at heq
          exact (ih x).mpr ⟨l1', l2, heq.2, hpx,
            fun y hy => hl1 y (List.mem_cons_of_mem _ hy)⟩

theorem find?_eq_none_iff (p : α → Bool) :
    ∀ l : List α, l.find? p = none ↔ ∀ y ∈ l, p y = false := by
  intro l
  induction l with
  | nil => simp [List.find?]
  | cons a rest ih =>
    cases hpa : p a with
    | true =>
      rw [List.find?_cons_of_pos _ hpa]
      constructor
      · intro h; exact absurd h (by simp)
      · intro hcon
        have := hcon a (List.mem_cons_self _ _)
        rw [hpa] at this
        exact absurd this (by simp)
    | false =>
      rw [List.find?_cons_of_neg _ (by simp [hpa])]
      rw [ih]
      constructor
      · intro h y hy
        rcases List.mem_cons.mp hy with rfl | hy'
        · exact hpa
        · exact h y hy'
      · intro h y hy
        exact h y (List.mem_cons_of_mem _ hy)

/-! ### Claim theorems -/

/-- C1: after `read_csv` processes a sequence of CSV records starting from
an empty report (under any group rules), every display name's stored
`ProductAggregate` has `units` equal to the sum of the quantities of the
records resolving to that display name, and `revenue` equal to the sum of
`unit_price * quantity` over those same records. -/
theorem C1_read_csv_aggregates (groups : List Group) (sortf : Bool)
    (recs : List Record) (r : Report)
    (h : Report.read_csv_records ⟨groups, [], 0, Usd.zero, sortf⟩ recs = some r) :
    ∀ name : String,
      (r.prodOf name).units = sumQty groups name recs
      ∧ (r.prodOf name).revenue.cents = sumRev groups name recs := by
  obtain ⟨_, hspec⟩ := read_csv_records_spec recs _ r h
  intro name
  obtain ⟨hu, hrv⟩ := hspec name
  constructor
  · rw [hu]; simp [Report.prodOf, mapLookup, Product.deflt, Usd.zero]
  · rw [hrv]; simp [Report.prodOf, mapLookup, Product.deflt, Usd.zero]

/-- C1 witness: the Widget example — rows (qty=2, "Widget", $5.00) and
(qty=1, "Widget", $5.00) aggregate to units 3 and revenue 1500 cents. -/
theorem C1_witness :
    Report.read_csv_records ⟨[], [], 0, Usd.zero, false⟩
        [⟨2, "Widget", ⟨500⟩⟩, ⟨1, "Widget", ⟨500⟩⟩]
      = some ⟨[], [("Widget", ⟨3, ⟨1500⟩⟩)], 3, ⟨1500⟩, false⟩
    ∧ sumQty [] "Widget" [⟨2, "Widget", ⟨500⟩⟩, ⟨1, "Widget", ⟨500⟩⟩] = 3
    ∧ sumRev [] "Widget" [⟨2, "Widget", ⟨500⟩⟩, ⟨1, "Widget", ⟨500⟩⟩] = 1500
    ∧ ((Report.prodOf ⟨[], [("Widget", ⟨3, ⟨1500⟩⟩)], 3, ⟨1500⟩, false⟩
          "Widget").units
        = sumQty [] "Widget" [⟨2, "Widget", ⟨500⟩⟩, ⟨1, "Widget", ⟨500⟩⟩]
      ∧ (Report.prodOf ⟨[], [("Widget", ⟨3, ⟨1500⟩⟩)], 3, ⟨1500⟩, false⟩
          "Widget").revenue.cents
        = sumRev [] "Widget" [⟨2, "Widget", ⟨500⟩⟩, ⟨1, "Widget", ⟨500⟩⟩]) :=
  ⟨by decide, by decide, by decide,
   C1_read_csv_aggregates [] false _ _ (by decide) "Widget"⟩

/-- C2: the grand totals equal the sums over the per-product aggregates:
after construction, after every single successful record update, and after
every completed build from an empty report. -/
theorem C2_totals_invariant :
    totalsInvariant Report.new
    ∧ (∀ (r : Report) (rec : Record) (r' : Report),
        mapWF r.products → totalsInvariant r →
        r.read_csv_step rec = some r' →
        totalsInvariant r' ∧ mapWF r'.products)
    ∧ (∀ (groups : List Group) (sortf : Bool) (recs : List Record) (r : Report),
        Report.read_csv_records ⟨groups, [], 0, Usd.zero, sortf⟩ recs = some r →
        totalsInvariant r) := by
  refine ⟨⟨rfl, rfl⟩,
    fun r rec r' hWF hInv h => read_csv_step_invariant hWF hInv h, ?_⟩
  intro groups sortf recs r h
  exact (read_csv_records_invariant recs ⟨groups, [], 0, Usd.zero, sortf⟩ r
    (by unfold mapWF; exact List.Pairwise.nil) ⟨rfl, rfl⟩ h).1

/-- C2 witness: the invariant holds for the concrete report built from
the two Widget rows. -/
theorem C2_witness :
    totalsInvariant ⟨[], [("Widget", ⟨3, ⟨1500⟩⟩)], 3, ⟨1500⟩, false⟩ :=
  C2_totals_invariant.2.2 [] false [⟨2, "Widget", ⟨500⟩⟩, ⟨1, "Widget", ⟨500⟩⟩]
    _ (by decide)

/-- C3: `product_group` returns the name of the first rule in load order
whose regex matches anywhere within the name (unanchored substring search,
not a full-string match), and `none` when no rule matches; with rules
[("A","foo"), ("B","foobar")] in that order, "foobar item" resolves to
"A", not "B". -/
theorem C3_product_group_first_match (groups : List Group)
    (name gname : String) :
    (product_group groups name = some gname ↔
      ∃ pre g post, groups = pre ++ g :: post ∧ g.name = gname
        ∧ g.regex.is_match name = true
        ∧ ∀ g' ∈ pre, g'.regex.is_match name = false)
    ∧ (product_group groups name = none ↔
        ∀ g ∈ groups, g.regex.is_match name = false)
    ∧ (∀ re : Regex, re.is_match name = true ↔
        ∃ u v w, name.data = u ++ v ++ w ∧ re.rmatch v = true)
    ∧ product_group [⟨"A", strRegex "foo"⟩, ⟨"B", strRegex "foobar"⟩]
        "foobar item" = some "A"
    ∧ Regex.rmatch (strRegex "foo") "xfoox".data = false
    ∧ Regex.is_match (strRegex "foo") "xfoox" = true := by
  refine ⟨?_, ?_, fun re => is_match_iff_substring re name,
    by decide, by decide, by decide⟩
  · unfold product_group
    constructor
    · intro h
      cases hf : groups.find? (fun g => g.regex.is_match name) with
      | none => rw [hf] at h; exact absurd h (by simp)
      | some g =>
        rw [hf, Option.map_some', Option.some_inj] at h
        obtain ⟨l1, l2, heq, hp, hl1⟩ := (find?_eq_some_split _ groups g).mp hf
        exact ⟨l1, g, l2, heq, h, hp, hl1⟩
    · rintro ⟨pre, g, post, heq, hname, hmatch, hpre⟩
      have hf : groups.find? (fun g => g.regex.is_match name) = some g :=
        (find?_eq_some_split _ groups g).mpr ⟨pre, post, heq, hmatch, hpre⟩
      rw [hf, Option.map_some', hname]
  · unfold product_group
    constructor
    · intro h
      cases hf : groups.find? (fun g => g.regex.is_match name) with
      | none => exact (find?_eq_none_iff _ groups).mp hf
      | some g => rw [hf] at h; exact absurd h (by simp)
    · intro h
      rw [(find?_eq_none_iff _ groups).mpr h]
      rfl

/-- C4: both sorted views are permutations of the product-map key set
(hence of each other); `products_by_unit_sales` is ordered by descending
units and `products_by_revenue` by descending revenue, with equal-metric
ties in ascending lexicographic name order. -/
theorem C4_sorted_permutations (r : Report) (hWF : mapWF r.products) :
    r.products_by_unit_sales.Perm (r.products.map Prod.fst)
    ∧ r.products_by_revenue.Perm (r.products.map Prod.fst)
    ∧ r.products_by_unit_sales.Perm r.products_by_revenue
    ∧ r.products_by_unit_sales.Pairwise (lexOrd fun n => (r.prodOf n).units)
    ∧ r.products_by_revenue.Pairwise
        (lexOrd fun n => (r.prodOf n).revenue.cents) := by
  have hkeys : (r.products.map Prod.fst).Pairwise fun a b => strLt a b = true :=
    List.pairwise_map.mpr hWF
  have h1 := stableSort_perm (sbOf fun n => (r.prodOf n).units)
    (r.products.map Prod.fst)
  have h2 := stableSort_perm (sbOf fun n => (r.prodOf n).revenue.cents)
    (r.products.map Prod.fst)
  exact ⟨h1, h2, h1.trans h2.symm,
    stableSort_pairwise _ _ hkeys, stableSort_pairwise _ _ hkeys⟩

/-- C4 witness: a concrete two-product report. -/
theorem C4_witness :
    (⟨[], [("A", ⟨1, ⟨100⟩⟩), ("B", ⟨2, ⟨50⟩⟩)], 3, ⟨150⟩, false⟩
        : Report).products_by_unit_sales.Perm
      ((⟨[], [("A", ⟨1, ⟨100⟩⟩), ("B", ⟨2, ⟨50⟩⟩)], 3, ⟨150⟩, false⟩
        : Report).products.map Prod.fst) :=
  (C4_sorted_permutations
    ⟨[], [("A", ⟨1, ⟨100⟩⟩), ("B", ⟨2, ⟨50⟩⟩)], 3, ⟨150⟩, false⟩
    (by unfold mapWF; simp; decide)).1

/-- C5 counterexample: on the receiver-mutating API the failing operation
does leave observable state behind.  `read_groups` on a good line followed
by a delimiter-less line returns a `ConfigError` *and* the receiver keeps
the group added from the first line; `read_csv` on a good row followed by
a malformed row returns a `RecordError` *and* the receiver keeps the first
row's aggregation — not "as if the failing operation had never run". -/
theorem C5_counterexample :
    (Report.read_groups compileLiteral Report.new ["A | foo", "bad line"]).1
      = Except.error (Err.configError "bad line format (missing |): bad line")
    ∧ (Report.read_groups compileLiteral Report.new ["A | foo", "bad line"]).2.groups
      = [⟨"A", strRegex "foo"⟩]
    ∧ Report.new.groups = []
    ∧ (Report.read_csv_rows
        ["Lineitem quantity", "Lineitem name", "Lineitem price"]
        Report.new [["2", "Widget", "5.00"], ["x", "Widget", "5.00"]]).1
      = Except.error (Err.recordError "invalid quantity")
    ∧ (Report.read_csv_rows
        ["Lineitem quantity", "Lineitem name", "Lineitem price"]
        Report.new [["2", "Widget", "5.00"], ["x", "Widget", "5.00"]]).2.units = 2
    ∧ Report.new.units = 0 :=
  ⟨rfl, rfl, rfl, rfl, rfl, rfl⟩

/-- C5 amended: loading and building are fail-fast — a group line without
the `" | "` delimiter makes `read_groups` fail with an error (never `Ok`),
a malformed CSV row makes `read_csv` fail (never `Ok`), and
`Groups::from_file` (src/groups.rs) returns no rule-set value on failure;
however the `&mut self` methods `Report::read_groups` / `Report::read_csv`
retain the updates performed before the failing entry, so the receiver's
state is not rolled back. -/
theorem C5_amended_fail_fast :
    (∀ (compile : String → Except String Regex) (r : Report)
        (lines : List String) (bad : String),
        bad ∈ lines → splitOnce " | ".data bad.data = none →
        (Report.read_groups compile r lines).1 ≠ Except.ok ())
    ∧ (∀ (hdr : List String) (r : Report) (rows : List (List String))
        (bad : List String) (e : Err),
        bad ∈ rows → parse_record hdr bad = Except.error e →
        (Report.read_csv_rows hdr r rows).1 ≠ Except.ok ())
    ∧ (∀ (compile : String → Except String Regex) (lines : List String)
        (bad : String) (gs : List Group),
        bad ∈ lines → splitOnce " | ".data bad.data = none →
        Groups.from_file_lines compile lines ≠ Except.ok gs) := by
  refine ⟨?_, ?_, ?_⟩
  · intro compile r lines
    induction lines generalizing r with
    | nil => intro bad hmem; exact absurd hmem (List.not_mem_nil bad)
    | cons line rest ih =>
      intro bad hmem hsplit
      simp only [Report.read_groups]
      rcases List.mem_cons.mp hmem with rfl | hmem'
      · rw [hsplit]
        simp
      · split
        · simp
        · split
          · simp
          · exact ih _ bad hmem' hsplit
  · intro hdr r rows
    induction rows generalizing r with
    | nil => intro bad e hmem; exact absurd hmem (List.not_mem_nil bad)
    | cons row rest ih =>
      intro bad e hmem hbad
      simp only [Report.read_csv_rows]
      rcases List.mem_cons.mp hmem with rfl | hmem'
      · rw [hbad]
        simp
      · split
        · simp
        · split
          · simp
          · exact ih _ bad e hmem' hbad
  · intro compile lines
    induction lines with
    | nil => intro bad gs hmem; exact absurd hmem (List.not_mem_nil bad)
    | cons line rest ih =>
      intro bad gs hmem hsplit
      simp only [Groups.from_file_lines]
      rcases List.mem_cons.mp hmem with rfl | hmem'
      · rw [hsplit]
        simp
      · split
        · simp
        · split
          · simp
          · cases hrec : Groups.from_file_lines compile rest with
            | error e => simp [Except.map]
            | ok gs' => exact absurd hrec (ih bad gs' hmem' hsplit)

/-- C5 witness: concrete failing loads and builds. -/
theorem C5_amended_witness :
    (Report.read_groups compileLiteral Report.new ["bad line"]).1
      ≠ Except.ok ()
    ∧ (Report.read_csv_rows ["Lineitem name"] Report.new [["Widget"]]).1
      ≠ Except.ok ()
    ∧ Groups.from_file_lines compileLiteral ["bad line"] ≠ Except.ok [] :=
  ⟨C5_amended_fail_fast.1 compileLiteral Report.new ["bad line"] "bad line"
      (List.mem_singleton.mpr rfl) (by decide),
   C5_amended_fail_fast.2.1 ["Lineitem name"] Report.new [["Widget"]]
      ["Widget"] (Err.recordError "missing field Lineitem quantity")
      (List.mem_singleton.mpr rfl) rfl,
   C5_amended_fail_fast.2.2 compileLiteral ["bad line"] "bad line" []
      (List.mem_singleton.mpr rfl) (by decide)⟩

/-- C6: rendering a report with an empty product map does not succeed —
the width computation `.keys().max_by_key(|name| name.len()).unwrap()`
unwraps `None` and panics; there is no special case for the empty
aggregate. -/
theorem C6_render_empty_panics :
    (∀ r : Report, r.products = [] → r.render = none)
    ∧ Report.render Report.new = none := by
  refine ⟨?_, rfl⟩
  intro r h
  unfold Report.render
  rw [h]
  rfl

/-- C6 witness: the freshly constructed report renders to a panic. -/
theorem C6_witness : Report.render Report.new = none :=
  C6_render_empty_panics.1 Report.new rfl

/-- C7 counterexample: `"5.0"` is accepted by Money's parse (as 50 cents),
but formatting the result yields `"0.50"`, not the canonical two-decimal
form `"5.00"` of `"5.0"` — the round trip fails for accepted strings whose
fraction part is not exactly two digits. -/
theorem C7_counterexample :
    Usd.fromStr "5.0" = some ⟨50⟩
    ∧ Usd.displayCore ⟨50⟩ = "0.50"
    ∧ Usd.display ⟨50⟩ = padLeft 12 "0.50"
    ∧ ("0.50" : String) ≠ "5.00" :=
  ⟨by decide, rfl, rfl, by decide⟩

/-- C7 amended: for canonical decimal strings with exactly two digits
after the decimal point (integral part rendered without leading zeros),
parse returns the cent count and format reproduces the same string
(right-aligned to the 12-character display width); and parse is
insensitive to thousands-separator commas. -/
theorem C7_amended_roundtrip (q r : Nat) (s : String) (hr : r < 100)
    (hmax : ((q * 100 + r : Nat) : Int) ≤ i32max) :
    Usd.fromStr (String.mk (natToChars q ++ '.' :: twoDigits r))
      = some ⟨((q * 100 + r : Nat) : Int)⟩
    ∧ Usd.displayCore ⟨((q * 100 + r : Nat) : Int)⟩
      = String.mk (natToChars q ++ '.' :: twoDigits r)
    ∧ Usd.display ⟨((q * 100 + r : Nat) : Int)⟩
      = padLeft 12 (String.mk (natToChars q ++ '.' :: twoDigits r))
    ∧ Usd.fromStr (String.mk (s.data.filter fun c => !(c = ',')))
      = Usd.fromStr s := by
  refine ⟨fromStr_canonical q r hr hmax, displayCore_canonical q r hr, ?_, ?_⟩
  · unfold Usd.display
    rw [displayCore_canonical q r hr]
  · have hfilt : ((String.mk (s.data.filter fun c => !(c = ','))).data.filter
        fun c => !(c = '.' || c = ','))
        = s.data.filter fun c => !(c = '.' || c = ',') := by
      show ((s.data.filter fun c => !(c = ',')).filter
          fun c => !(c = '.' || c = ','))
        = s.data.filter fun c => !(c = '.' || c = ',')
      rw [List.filter_filter]
      apply List.filter_congr
      intro c _
      by_cases h1 : c = ','
      · simp [h1]
      · simp [h1]
    unfold Usd.fromStr
    rw [hfilt]

/-- C7 witness: the canonical string for 123456 cents ("1234.56") and
comma insensitivity on "1,234.56". -/
theorem C7_amended_witness :
    Usd.fromStr (String.mk (natToChars 1234 ++ '.' :: twoDigits 56))
      = some ⟨((1234 * 100 + 56 : Nat) : Int)⟩
    ∧ Usd.displayCore ⟨((1234 * 100 + 56 : Nat) : Int)⟩
      = String.mk (natToChars 1234 ++ '.' :: twoDigits 56)
    ∧ Usd.fromStr (String.mk ("1,234.56".data.filter fun c => !(c = ',')))
      = Usd.fromStr "1,234.56" := by
  obtain ⟨h1, h2, _, h4⟩ :=
    C7_amended_roundtrip 1234 56 "1,234.56" (by decide) (by decide)
  exact ⟨h1, h2, h4⟩

/-- C8 counterexample: a CSV schema without a quantity column does not
deserialize with a default quantity of 1 — `Record.qty` carries no serde
default, so deserialization fails with a missing-field error. -/
theorem C8_counterexample :
    parse_record ["Item Name", "Item Price ($)"] ["Widget", "5.00"]
      = Except.error (Err.recordError "missing field Lineitem quantity") := rfl

/-- C8 amended: for every header that contains neither "Lineitem quantity"
nor "Quantity", record parsing fails with the missing-quantity-field
error for every row; the quantity never defaults to 1. -/
theorem C8_amended_qty_required (hdr row : List String)
    (h1 : ∀ c ∈ hdr, c ≠ "Lineitem quantity")
    (h2 : ∀ c ∈ hdr, c ≠ "Quantity") :
    parse_record hdr row
      = Except.error (Err.recordError "missing field Lineitem quantity") := by
  have hget : getField ["Lineitem quantity", "Quantity"] hdr row = none := by
    induction hdr generalizing row with
    | nil => rfl
    | cons c hs ih =>
      have hc1 : c ≠ "Lineitem quantity" := h1 c (List.mem_cons_self _ _)
      have hc2 : c ≠ "Quantity" := h2 c (List.mem_cons_self _ _)
      have hcon : (["Lineitem quantity", "Quantity"] : List String).contains c
          = false := by
        simp [List.contains, hc1, hc2]
      unfold getField
      rw [hcon]
      simp only [Bool.false_eq_true, if_false]
      exact ih row.tail (fun d hd => h1 d (List.mem_cons_of_mem _ hd))
        (fun d hd => h2 d (List.mem_cons_of_mem _ hd))
  unfold parse_record
  rw [hget]

/-- C8 witness: a concrete quantity-less header. -/
theorem C8_amended_witness :
    parse_record ["Item Name"] []
      = Except.error (Err.recordError "missing field Lineitem quantity") :=
  C8_amended_qty_required ["Item Name"] [] (by decide) (by decide)

/-- C9 counterexample: `add` on i32 cent counts is not "the exact integer
sum" for every pair — at `i32::MAX + 1` the addition overflows (panic in
debug, wrap in release) instead of producing 2^31. -/
theorem C9_counterexample :
    Usd.add ⟨i32max⟩ ⟨1⟩ = none
    ∧ (⟨i32max⟩ : Usd).cents + (⟨1⟩ : Usd).cents = 2 ^ 31 :=
  ⟨by decide, by decide⟩

/-- C9 amended: whenever the exact sum (respectively the exact product
with a non-negative integer quantity) fits in the i32 range, `add` and
`scale` return exactly it — integer arithmetic with no floating point and
no rounding. -/
theorem C9_amended_exact_in_range (a b x : Usd) (n : Int)
    (hab : fitsI32 (a.cents + b.cents)) (_hn : 0 ≤ n)
    (hxn : fitsI32 (x.cents * n)) :
    Usd.add a b = some ⟨a.cents + b.cents⟩
    ∧ Usd.mul x n = some ⟨x.cents * n⟩ := by
  constructor
  · unfold Usd.add
    rw [checkedI32_of_fits hab]
    rfl
  · unfold Usd.mul
    rw [checkedI32_of_fits hxn]
    rfl

/-- C9 witness: $2.00 + $3.00 = $5.00 and $5.00 × 3 = $15.00. -/
theorem C9_amended_witness :
    Usd.add ⟨200⟩ ⟨300⟩ = some ⟨500⟩ ∧ Usd.mul ⟨500⟩ 3 = some ⟨1500⟩ := by
  have h := C9_amended_exact_in_range ⟨200⟩ ⟨300⟩ ⟨500⟩ 3
    (by decide) (by decide) (by decide)
  exact ⟨h.1, h.2⟩

theorem read_csv_step_prodOf {r : Report} {rec : Record} {r' : Report}
    (h : r.read_csv_step rec = some r') :
    (r'.prodOf (displayName r.groups rec)).units
      = (r.prodOf (displayName r.groups rec)).units + rec.qty
    ∧ (r'.prodOf (displayName r.groups rec)).revenue.cents
      = (r.prodOf (displayName r.groups rec)).revenue.cents
          + rec.price.cents * rec.qty := by
  obtain ⟨_, _, _, _, hprod⟩ := read_csv_step_some h
  constructor <;>
  · unfold Report.prodOf
    rw [hprod, mapLookup_insert_self]
    rfl

/-- C10: a CSV row with a negative quantity is accepted — the quantity
parser takes a sign, and `read_csv` applies no non-negativity check — and
the update adds the negative quantity to the product's units and the grand
total, and price × quantity to the revenues, so per-product and grand
totals can decrease. -/
theorem C10_negative_qty_accepted (r : Report) (rec : Record)
    (hq : rec.qty < 0)
    (h1 : fitsI32 ((r.prodOf (displayName r.groups rec)).units + rec.qty))
    (h2 : fitsI32 (r.units + rec.qty))
    (h3 : fitsI32 (rec.price.cents * rec.qty))
    (h4 : fitsI32 ((r.prodOf (displayName r.groups rec)).revenue.cents
        + rec.price.cents * rec.qty))
    (h5 : fitsI32 (r.revenue.cents + rec.price.cents * rec.qty)) :
    parse_record ["Lineitem quantity", "Lineitem name", "Lineitem price"]
        ["-3", "Widget", "5.00"]
      = Except.ok ⟨-3, "Widget", ⟨500⟩⟩
    ∧ ∃ r', r.read_csv_step rec = some r'
        ∧ r'.units = r.units + rec.qty
        ∧ r'.units < r.units
        ∧ r'.revenue.cents = r.revenue.cents + rec.price.cents * rec.qty
        ∧ (r'.prodOf (displayName r.groups rec)).units
            = (r.prodOf (displayName r.groups rec)).units + rec.qty
        ∧ (r'.prodOf (displayName r.groups rec)).units
            < (r.prodOf (displayName r.groups rec)).units
        ∧ (0 < rec.price.cents → r'.revenue.cents < r.revenue.cents) := by
  refine ⟨rfl, ?_⟩
  have hstep := read_csv_step_of_fits h1 h2 h3 h4 h5
  obtain ⟨_, _, hu, hrev, _⟩ := read_csv_step_some hstep
  obtain ⟨hpu, _⟩ := read_csv_step_prodOf hstep
  refine ⟨_, hstep, hu, by omega, hrev, hpu, by omega, ?_⟩
  intro hp
  have hneg : rec.price.cents * rec.qty < 0 := mul_neg_of_pos_of_neg hp hq
  omega

/-- C10 witness: a concrete negative-quantity row decreases the total. -/
theorem C10_witness :
    ∃ r', Report.read_csv_step Report.new ⟨-3, "Widget", ⟨500⟩⟩ = some r'
      ∧ r'.units < Report.new.units := by
  obtain ⟨-, r', hstep, -, hlt, -⟩ := C10_negative_qty_accepted Report.new
    ⟨-3, "Widget", ⟨500⟩⟩ (by decide) (by decide) (by decide) (by decide)
    (by decide) (by decide)
  exact ⟨r', hstep, hlt⟩

end Sales
